import Mathlib

/-!
Online order management system: record codec, observers, order processing.

A shallow embedding of `src/main.cpp`.

* `std::string` is a sequence of characters (`Text`).
* `double` is modelled by its exact value: a finite double is a signed dyadic
  rational `± m / 2 ^ k`, next to the infinities and NaN.
* `std::vector` is a list, `push_back` appends at the end.
* The effects of `OrderManager::placeOrder`, `main` and
  `OrderProcessor::process` are recorded as explicit event traces and explicit
  file contents.
-/

namespace OrderSystem

/-- A `std::string`: a sequence of characters. -/
abbrev Text := List Char

/-- The value of a C++ `double`.  `finite neg m k` is `(-1)^neg * m / 2^k`; every finite
IEEE-754 double has this shape (it is an integer multiple of `2^-1074`). -/
inductive Double where
  | finite (neg : Bool) (m : Nat) (k : Nat)
  | inf (neg : Bool)
  | nan (neg : Bool)
  deriving DecidableEq

namespace Double

/-- Finite values: neither an infinity nor NaN. -/
def isFinite : Double → Bool
  | finite _ _ _ => true
  | inf _ => false
  | nan _ => false

/-- The C++ comparison `x >= 0.0`: true for `-0.0` and `+inf`, false for NaN. -/
def isNonNegative : Double → Bool
  | finite neg m _ => !neg || m == 0
  | inf neg => !neg
  | nan _ => false

/-- The sign bit of the double: set for negative values, for `-0.0` and for `-inf`. -/
def signBit : Double → Bool
  | finite neg _ _ => neg
  | inf neg => neg
  | nan neg => neg

/-- The exact value of a finite double as a rational number (`0` for the non-finite ones). -/
def toRat : Double → ℚ
  | finite neg m k => (if neg then -1 else 1) * ((m : ℚ) / 2 ^ k)
  | inf _ => 0
  | nan _ => 0

end Double

/-! ## `std::to_string(double)`

The C++ standard defines `std::to_string(double)` as the output of
`sprintf(buf, "%f", value)`: sign, integer part, a decimal point, and six
fractional digits, the value being rounded to six decimals (to nearest, ties
to even, as the default IEEE rounding mode gives); infinities and NaN are
printed as `inf` and `nan`. -/

/-- The character of the decimal digit `d`. -/
def digitChar (d : Nat) : Char := Char.ofNat (48 + d)

/-- Decimal digits of `n`, most significant first, at most `fuel` of them. -/
def decimalDigitsAux : Nat → Nat → Text
  | 0, _ => []
  | fuel + 1, n =>
    if n < 10 then [digitChar n] else decimalDigitsAux fuel (n / 10) ++ [digitChar (n % 10)]

/-- Decimal rendering of a natural number without leading zeros (`0` gives one digit). -/
def decimalDigits (n : Nat) : Text := decimalDigitsAux (n + 1) n

/-- The last `w` decimal digits of `n`, zero padded on the left. -/
def paddedDigits : Nat → Nat → Text
  | 0, _ => []
  | w + 1, n => paddedDigits w (n / 10) ++ [digitChar (n % 10)]

/-- The magnitude `m / 2^k` in units of `10^-6`, rounded to nearest, ties to even. -/
def microUnits (m k : Nat) : Nat :=
  let q := m * 1000000 / 2 ^ k
  let r := m * 1000000 % 2 ^ k
  if 2 * r < 2 ^ k then q
  else if 2 ^ k < 2 * r then q + 1
  else if q % 2 = 0 then q else q + 1

/-- The sign printed by `%f`. -/
def signText (neg : Bool) : Text := if neg then ['-'] else []

/-- Model of `std::to_string(double)`, that is of `sprintf` with format `%f`. -/
def to_string : Double → Text
  | Double.finite neg m k =>
    signText neg ++ decimalDigits (microUnits m k / 1000000) ++ ['.'] ++
      paddedDigits 6 (microUnits m k % 1000000)
  | Double.inf neg => signText neg ++ ['i', 'n', 'f']
  | Double.nan neg => signText neg ++ ['n', 'a', 'n']

/-! ## Products and orders -/

/-- Class `Product`: a name and a price. -/
structure Product where
  name : Text
  price : Double
  deriving DecidableEq

namespace Product

/-- `Product::getName`. -/
def getName (p : Product) : Text := p.name

/-- `Product::getPrice`. -/
def getPrice (p : Product) : Double := p.price

end Product

namespace ProductFactory

/-- `ProductFactory::createProduct`. -/
def createProduct (name : Text) (price : Double) : Product := Product.mk name price

end ProductFactory

/-- Class `Order`: the vector of its products. -/
structure Order where
  products : List Product
  deriving DecidableEq

namespace Order

/-- A default-constructed `Order`: no products. -/
def empty : Order := Order.mk []

/-- `Order::addProduct`: `products.push_back(product)`. -/
def addProduct (o : Order) (product : Product) : Order := Order.mk (o.products ++ [product])

/-- `Order::getProducts`. -/
def getProducts (o : Order) : List Product := o.products

/-- `Order::serialize`: the loop appends `name + "," + to_string(price) + "\n"` to `data`
for each product in turn, starting from the empty string. -/
def serialize (o : Order) : Text :=
  o.products.foldl
    (fun data product =>
      data ++ (product.getName ++ [','] ++ to_string product.getPrice ++ ['\n']))
    []

end Order

/-- The line the loop of `Order::serialize` appends for one product. -/
def productLine (p : Product) : Text :=
  p.getName ++ [','] ++ to_string p.getPrice ++ ['\n']

/-- A line of the record without its terminating newline. -/
def lineBody (p : Product) : Text := p.getName ++ [','] ++ to_string p.getPrice

/-- The order obtained from a fresh `Order` by calling `addProduct` on each product in turn. -/
def buildOrder (ps : List Product) : Order := ps.foldl Order.addProduct Order.empty

/-! ## Decoding a record

The source has no decoder; the one below follows the specification of
`Decode`: the text is split into lines at each newline, each line at its comma
into a name and a price, and the price is read as a non-negative decimal. -/

/-- Modelled from the spec: the value of a decimal digit character of a price, `none` for
any other character. -/
def parseDigit (c : Char) : Option Nat :=
  if c.isDigit then some (c.toNat - 48) else none

/-- Modelled from the spec: reads a run of decimal digits of a price, most significant
first, onto the accumulator `acc`. -/
def parseDigitsAux : Nat → Text → Option Nat
  | acc, [] => some acc
  | acc, c :: cs =>
    match parseDigit c with
    | some d => parseDigitsAux (acc * 10 + d) cs
    | none => none

/-- Modelled from the spec: reads a non-empty run of decimal digits as a natural number. -/
def parseNat (s : Text) : Option Nat :=
  if s = [] then none else parseDigitsAux 0 s

/-- Modelled from the spec: reads a price as a non-negative decimal, that is digits,
optionally followed by a point and digits; `none` when the text has another shape. -/
def parseDecimal (s : Text) : Option ℚ :=
  match s.splitOn '.' with
  | [whole] => (parseNat whole).map (fun n => (n : ℚ))
  | [whole, frac] =>
    match parseNat whole, parseNat frac with
    | some n, some f => some ((n : ℚ) + (f : ℚ) / 10 ^ frac.length)
    | _, _ => none
  | _ => none

/-- Modelled from the spec: one line of `Decode`, which must have the two-field shape
`name,price` with `price` a non-negative decimal; `none` stands for `MalformedRecord`. -/
def decodeLine (line : Text) : Option (Text × ℚ) :=
  match line.splitOn ',' with
  | [name, price] => (parseDecimal price).map (fun v => (name, v))
  | _ => none

/-- Modelled from the spec: `Decode` on the lines of a record, failing when one of them
fails. -/
def decodeLines : List Text → Option (List (Text × ℚ))
  | [] => some []
  | line :: rest =>
    match decodeLine line, decodeLines rest with
    | some r, some rs => some (r :: rs)
    | _, _ => none

/-- Modelled from the spec: `Decode`, absent from the source.  The text is split at each
newline; the entry after the last newline must be empty (every line is terminated), and
every other entry is decoded as a line.  `none` stands for `MalformedRecord`. -/
def decode (text : Text) : Option (List (Text × ℚ)) :=
  let entries := text.splitOn '\n'
  if entries.getLast? = some [] then decodeLines entries.dropLast else none

/-- The number of digits after the decimal point of a rendered price: the field must
consist of one part before a single point and a part of digits only after it. -/
def digitsAfterPoint (field : Text) : Option Nat :=
  match field.splitOn '.' with
  | [_, frac] => if frac.all Char.isDigit then some frac.length else none
  | _ => none

/-- The price of a product as `Decode` would have to return it: its exact value. -/
def Product.pair (p : Product) : Text × ℚ := (p.getName, p.getPrice.toRat)

/-- The price rounded to six decimals (ties to even), as a rational number. -/
def Double.roundedToMicro : Double → ℚ
  | Double.finite neg m k => (if neg then -1 else 1) * ((microUnits m k : ℚ) / 1000000)
  | Double.inf _ => 0
  | Double.nan _ => 0

/-! ## Observers, the order manager and the order processor -/

/-- An `OrderObserver*`: observers are known to the manager by their address only. -/
abbrev ObserverId := Nat

/-- The observable steps of `OrderManager::placeOrder`, `OrderProcessor::process`,
`FileManager::openFile` and `main`. -/
inductive Event where
  | recorded (order : Order)
  | update (observer : ObserverId) (order : Order)
  | processOrder (order : Order)
  | cout (line : Text)
  | cerr (line : Text)
  | sleep (seconds : Nat)
  deriving DecidableEq

namespace Event

/-- The event is a call `observer->update(order)`. -/
def isUpdate : Event → Bool
  | update _ _ => true
  | _ => false

/-- The event is a call `OrderProcessor::processOrder(order)`. -/
def isProcessOrder : Event → Bool
  | processOrder _ => true
  | _ => false

end Event

/-- Class `OrderManager`: the vectors `orders` and `observers`. -/
structure OrderManager where
  orders : List Order
  observers : List ObserverId
  deriving DecidableEq

namespace OrderManager

/-- A default-constructed `OrderManager`. -/
def empty : OrderManager := OrderManager.mk [] []

/-- `OrderManager::addObserver`: `observers.push_back(observer)`. -/
def addObserver (m : OrderManager) (observer : ObserverId) : OrderManager :=
  OrderManager.mk m.orders (m.observers ++ [observer])

/-- `OrderManager::placeOrder`: the new state and the trace of what the call does.  The
order is pushed onto `orders`, the loop calls `update` on each observer in turn, and then
`OrderProcessor::processOrder` is called. -/
def placeOrder (m : OrderManager) (order : Order) : OrderManager × List Event :=
  let m1 := OrderManager.mk (m.orders ++ [order]) m.observers
  let afterLoop :=
    m1.observers.foldl (fun trace observer => trace ++ [Event.update observer order])
      [Event.recorded order]
  (m1, afterLoop ++ [Event.processOrder order])

end OrderManager

namespace OrderProcessor

/-- The line `process` writes to standard output after writing the record. -/
def savedMessage : Text := "Order processed and saved to file.".toList

/-- The line `process` writes to standard error when the file is not open. -/
def failedMessage : Text := "Failed to open file for order processing.".toList

/-- The run reported that the order was saved. -/
def reportsPersisted (trace : List Event) : Prop := Event.cout savedMessage ∈ trace

/-- The run reported that the file could not be opened. -/
def reportsFailed (trace : List Event) : Prop := Event.cerr failedMessage ∈ trace

/-- What reaches the file when `data` is written to the open stream and the stream is
closed.  `writeLimit` is `none` when the write and the close succeed, and `some n` when
the medium takes only the first `n` characters before the write fails (a full disk, an
I/O error). -/
def written (writeLimit : Option Nat) (data : Text) : Text :=
  match writeLimit with
  | none => data
  | some n => data.take n

/-- `OrderProcessor::process`, run on its own.  `canOpen` says whether
`std::ofstream outFile("orders.txt", std::ios::app)` ends up open, `writeLimit` what the
medium does with the write, `file` is the content of `orders.txt` before the call.  The
result is the content afterwards and what was printed.  The source tests `is_open()`
only: the state of the stream after `<<` and after `close()` is never inspected, so the
saved message is printed whatever the write did. -/
def process (canOpen : Bool) (writeLimit : Option Nat) (file : Text) (order : Order) :
    Text × List Event :=
  if canOpen then (file ++ written writeLimit order.serialize, [Event.cout savedMessage])
  else (file, [Event.cerr failedMessage])

end OrderProcessor

/-- Class `FileManager`: whether its stream `file` is open. -/
structure FileManager where
  isOpen : Bool
  deriving DecidableEq

namespace FileManager

/-- `FileManager::getInstance`: the singleton, its stream not yet opened. -/
def getInstance : FileManager := FileManager.mk false

/-- `FileManager::openFile`.  `canOpen` says whether the file can be opened or created.
`file.open(filename, std::ios::app)` on a stream that is already open fails and leaves the
stream open, so `is_open()` is still true there; on a closed stream it opens the file when
it can.  The function returns `void`: its only results are the state of the stream and one
printed line, chosen by `is_open()`. -/
def openFile (fm : FileManager) (canOpen : Bool) (filename : Text) :
    FileManager × List Event :=
  let isOpen := fm.isOpen || canOpen
  if isOpen then (FileManager.mk true, [Event.cout ("File opened: ".toList ++ filename)])
  else (FileManager.mk false, [Event.cerr ("Failed to open file: ".toList ++ filename)])

end FileManager

/-- The `double` literal `999.99`: the nearest double, `4398002530638889 / 2^42`. -/
def price1 : Double := Double.finite false 4398002530638889 42

/-- The `double` literal `499.99`: the nearest double, `2198979275086889 / 2^42`. -/
def price2 : Double := Double.finite false 2198979275086889 42

/-- The order `main` builds: a laptop and a smartphone. -/
def mainOrder : Order :=
  (Order.empty.addProduct (ProductFactory.createProduct "Laptop".toList price1)).addProduct
    (ProductFactory.createProduct "Smartphone".toList price2)

/-- The address of the `ConcreteOrderObserver` that `main` registers. -/
def mainObserver : ObserverId := 0

/-- The manager after calling `addObserver` on each of the observers in turn. -/
def registerAll (m : OrderManager) (observers : List ObserverId) : OrderManager :=
  observers.foldl OrderManager.addObserver m

/-- An order of one product whose price `2^-24` has more than six decimals. -/
def tinyPriceOrder : Order := Order.mk [Product.mk ['x'] (Double.finite false 1 24)]

/-- An order of one product whose name contains a newline. -/
def newlineNameOrder : Order := Order.mk [Product.mk ['a', '\n', 'b'] (Double.finite false 1 0)]

/-- A product whose price is `+inf`. -/
def infinitePriceProduct : Product := Product.mk ['x'] (Double.inf false)

/-- The function `main`: the trace of the main thread and the value it returns.  `canOpen`
says whether `FileManager::openFile` manages to open `orders.txt`.  The result of
`openFile` is not inspected; the detached processing thread is not part of this trace. -/
def main (canOpen : Bool) : List Event × Int :=
  let opened := FileManager.getInstance.openFile canOpen "orders.txt".toList
  let orderManager := OrderManager.empty.addObserver mainObserver
  let placed := orderManager.placeOrder mainOrder
  (opened.2 ++ placed.2 ++ [Event.sleep 5], 0)

/-! ## Digits -/

theorem digitChar_isDigit : ∀ d, d < 10 → (digitChar d).isDigit = true := by decide

theorem parseDigit_digitChar : ∀ d, d < 10 → parseDigit (digitChar d) = some d := by decide

theorem isDigit_ne_separators (c : Char) (h : c.isDigit = true) :
    c ≠ '\n' ∧ c ≠ ',' ∧ c ≠ '.' := by
  refine ⟨?_, ?_, ?_⟩ <;> rintro rfl <;> revert h <;> decide

theorem isDigit_of_mem_decimalDigitsAux (fuel n : Nat) (c : Char)
    (h : c ∈ decimalDigitsAux fuel n) : c.isDigit = true := by
  induction fuel generalizing n with
  | zero => simp [decimalDigitsAux] at h
  | succ fuel ih =>
    unfold decimalDigitsAux at h
    split at h
    · rename_i hlt
      simp only [List.mem_singleton] at h
      subst h
      exact digitChar_isDigit n hlt
    · rcases List.mem_append.mp h with h | h
      · exact ih _ h
      · simp only [List.mem_singleton] at h
        subst h
        exact digitChar_isDigit _ (Nat.mod_lt _ (by decide))

theorem isDigit_of_mem_paddedDigits (w n : Nat) (c : Char)
    (h : c ∈ paddedDigits w n) : c.isDigit = true := by
  induction w generalizing n with
  | zero => simp [paddedDigits] at h
  | succ w ih =>
    unfold paddedDigits at h
    rcases List.mem_append.mp h with h | h
    · exact ih _ h
    · simp only [List.mem_singleton] at h
      subst h
      exact digitChar_isDigit _ (Nat.mod_lt _ (by decide))

theorem length_paddedDigits (w n : Nat) : (paddedDigits w n).length = w := by
  induction w generalizing n with
  | zero => rfl
  | succ w ih => simp [paddedDigits, ih]

theorem decimalDigitsAux_ne_nil (fuel n : Nat) : decimalDigitsAux (fuel + 1) n ≠ [] := by
  unfold decimalDigitsAux
  split <;> simp

theorem parseDigitsAux_snoc (acc : Nat) (s : Text) (c : Char) :
    parseDigitsAux acc (s ++ [c]) =
      (parseDigitsAux acc s).bind (fun a => (parseDigit c).map (fun d => a * 10 + d)) := by
  induction s generalizing acc with
  | nil =>
    simp only [List.nil_append, parseDigitsAux, Option.some_bind]
    cases parseDigit c <;> simp [parseDigitsAux]
  | cons x xs ih =>
    simp only [List.cons_append, parseDigitsAux]
    cases parseDigit x with
    | none => simp
    | some d => simpa using ih (acc * 10 + d)

theorem parseDigitsAux_decimalDigitsAux (fuel n : Nat) (h : n < fuel) :
    parseDigitsAux 0 (decimalDigitsAux fuel n) = some n := by
  induction fuel generalizing n with
  | zero => omega
  | succ fuel ih =>
    unfold decimalDigitsAux
    split
    · rename_i hlt
      simp [parseDigitsAux, parseDigit_digitChar n hlt]
    · rw [parseDigitsAux_snoc, ih (n / 10) (by omega),
        parseDigit_digitChar _ (Nat.mod_lt _ (by decide))]
      simp only [Option.some_bind, Option.map_some']
      congr 1
      omega

theorem parseNat_decimalDigits (n : Nat) : parseNat (decimalDigits n) = some n := by
  unfold parseNat decimalDigits
  rw [if_neg (decimalDigitsAux_ne_nil n n)]
  exact parseDigitsAux_decimalDigitsAux (n + 1) n (Nat.lt_succ_self n)

theorem parseDigitsAux_paddedDigits (w n : Nat) :
    parseDigitsAux 0 (paddedDigits w n) = some (n % 10 ^ w) := by
  induction w generalizing n with
  | zero => simp [paddedDigits, parseDigitsAux, Nat.mod_one]
  | succ w ih =>
    unfold paddedDigits
    rw [parseDigitsAux_snoc, ih (n / 10), parseDigit_digitChar _ (Nat.mod_lt _ (by decide))]
    simp only [Option.some_bind, Option.map_some']
    congr 1
    rw [pow_succ, Nat.mul_comm (10 ^ w) 10, Nat.mod_mul]
    omega

theorem parseNat_paddedDigits (n : Nat) (h : n < 1000000) :
    parseNat (paddedDigits 6 n) = some n := by
  unfold parseNat
  have hne : paddedDigits 6 n ≠ [] := by
    intro h0
    have := length_paddedDigits 6 n
    rw [h0] at this
    simp at this
  rw [if_neg hne, parseDigitsAux_paddedDigits]
  congr 1
  exact Nat.mod_eq_of_lt (by simpa using h)

/-! ## Splitting at a separator -/

theorem splitOn_eq_single (sep : Char) (xs : Text) (h : sep ∉ xs) :
    xs.splitOn sep = [xs] := by
  unfold List.splitOn
  apply List.splitOnP_eq_single
  intro x hx hp
  rw [beq_iff_eq] at hp
  exact h (hp ▸ hx)

theorem splitOn_append_sep (sep : Char) (xs rest : Text) (h : sep ∉ xs) :
    (xs ++ sep :: rest).splitOn sep = xs :: rest.splitOn sep := by
  unfold List.splitOn
  apply List.splitOnP_first
  · intro x hx hp
    rw [beq_iff_eq] at hp
    exact h (hp ▸ hx)
  · simp

/-! ## The rendered price -/

theorem mem_signText (neg : Bool) (c : Char) (h : c ∈ signText neg) : c = '-' := by
  cases neg <;> simp [signText] at h
  exact h

/-- Every character `std::to_string` prints is a digit or one of `-.infa`. -/
theorem mem_to_string (d : Double) (c : Char) (h : c ∈ to_string d) :
    c.isDigit = true ∨ c ∈ ['-', '.', 'i', 'n', 'f', 'a'] := by
  cases d with
  | finite neg m k =>
    simp only [to_string, List.mem_append, List.mem_singleton] at h
    rcases h with ((h | h) | h) | h
    · right; rw [mem_signText neg c h]; decide
    · left; exact isDigit_of_mem_decimalDigitsAux _ _ _ h
    · right; rw [h]; decide
    · left; exact isDigit_of_mem_paddedDigits _ _ _ h
  | inf neg =>
    simp only [to_string, List.mem_append] at h
    rcases h with h | h
    · right; rw [mem_signText neg c h]; decide
    · right
      simp only [List.mem_cons, List.mem_singleton, List.not_mem_nil, or_false] at h ⊢
      tauto
  | nan neg =>
    simp only [to_string, List.mem_append] at h
    rcases h with h | h
    · right; rw [mem_signText neg c h]; decide
    · right
      simp only [List.mem_cons, List.mem_singleton, List.not_mem_nil, or_false] at h ⊢
      tauto

theorem newline_not_mem_to_string (d : Double) : '\n' ∉ to_string d := by
  intro h
  rcases mem_to_string d _ h with h | h
  · revert h; decide
  · revert h; decide

theorem comma_not_mem_to_string (d : Double) : ',' ∉ to_string d := by
  intro h
  rcases mem_to_string d _ h with h | h
  · revert h; decide
  · revert h; decide

/-! ## The serialized record -/

theorem productLine_eq (p : Product) : productLine p = lineBody p ++ ['\n'] := rfl

theorem foldl_serialize (ps : List Product) (acc : Text) :
    ps.foldl
      (fun data product =>
        data ++ (product.getName ++ [','] ++ to_string product.getPrice ++ ['\n'])) acc
      = acc ++ (ps.map productLine).flatten := by
  induction ps generalizing acc with
  | nil => simp
  | cons p ps ih =>
    simp only [List.foldl_cons, List.map_cons, List.flatten_cons]
    rw [ih]
    simp [productLine, List.append_assoc]

theorem serialize_eq_flatten (o : Order) :
    o.serialize = (o.getProducts.map productLine).flatten := by
  unfold Order.serialize Order.getProducts
  rw [foldl_serialize]
  simp

theorem foldl_addProduct (ps : List Product) (o : Order) :
    ps.foldl Order.addProduct o = Order.mk (o.products ++ ps) := by
  induction ps generalizing o with
  | nil => simp
  | cons p ps ih => simp [List.foldl_cons, ih, Order.addProduct]

theorem buildOrder_products (ps : List Product) : (buildOrder ps).getProducts = ps := by
  simp [buildOrder, foldl_addProduct, Order.getProducts, Order.empty]

theorem splitOn_lines (ps : List Product) (h : ∀ p ∈ ps, '\n' ∉ p.getName) :
    ((ps.map productLine).flatten).splitOn '\n' = ps.map lineBody ++ [[]] := by
  induction ps with
  | nil => simp
  | cons p ps ih =>
    have hbody : '\n' ∉ lineBody p := by
      simp only [lineBody, List.mem_append, List.mem_singleton, not_or]
      exact ⟨⟨h p (List.mem_cons_self _ _), by decide⟩, newline_not_mem_to_string _⟩
    simp only [List.map_cons, List.flatten_cons, productLine_eq, List.append_assoc,
      List.singleton_append, List.cons_append]
    rw [splitOn_append_sep _ _ _ hbody, List.nil_append,
      ih (fun q hq => h q (List.mem_cons_of_mem _ hq))]

/-! ## Reading the rendered price back -/

theorem point_not_mem_decimalDigits (n : Nat) : '.' ∉ decimalDigits n := by
  intro h
  exact (isDigit_ne_separators _ (isDigit_of_mem_decimalDigitsAux _ _ _ h)).2.2 rfl

theorem point_not_mem_paddedDigits (w n : Nat) : '.' ∉ paddedDigits w n := by
  intro h
  exact (isDigit_ne_separators _ (isDigit_of_mem_paddedDigits _ _ _ h)).2.2 rfl

theorem splitOn_point_to_string (neg : Bool) (m k : Nat) :
    (to_string (Double.finite neg m k)).splitOn '.' =
      [signText neg ++ decimalDigits (microUnits m k / 1000000),
        paddedDigits 6 (microUnits m k % 1000000)] := by
  have hleft : '.' ∉ signText neg ++ decimalDigits (microUnits m k / 1000000) := by
    intro h
    rcases List.mem_append.mp h with h | h
    · have := mem_signText neg _ h
      revert this; decide
    · exact point_not_mem_decimalDigits _ h
  simp only [to_string, List.append_assoc, List.singleton_append]
  rw [← List.append_assoc, splitOn_append_sep _ _ _ hleft,
    splitOn_eq_single _ _ (point_not_mem_paddedDigits _ _)]

theorem digitsAfterPoint_to_string (neg : Bool) (m k : Nat) :
    digitsAfterPoint (to_string (Double.finite neg m k)) = some 6 := by
  unfold digitsAfterPoint
  rw [splitOn_point_to_string]
  have hall : (paddedDigits 6 (microUnits m k % 1000000)).all Char.isDigit = true := by
    rw [List.all_eq_true]
    exact fun c hc => isDigit_of_mem_paddedDigits _ _ _ hc
  simp only [hall, if_true, length_paddedDigits]

theorem parseDecimal_to_string (m k : Nat) :
    parseDecimal (to_string (Double.finite false m k)) =
      some (Double.roundedToMicro (Double.finite false m k)) := by
  unfold parseDecimal
  rw [splitOn_point_to_string]
  have hs : signText false ++ decimalDigits (microUnits m k / 1000000) =
      decimalDigits (microUnits m k / 1000000) := by simp [signText]
  simp only [hs, parseNat_decimalDigits,
    parseNat_paddedDigits _ (Nat.mod_lt _ (by decide : 0 < 1000000)), length_paddedDigits]
  congr 1
  simp only [Double.roundedToMicro, Bool.false_eq_true, if_false, one_mul]
  have h := Nat.div_add_mod (microUnits m k) 1000000
  have hq : ((microUnits m k : ℕ) : ℚ) =
      1000000 * ((microUnits m k / 1000000 : ℕ) : ℚ) + ((microUnits m k % 1000000 : ℕ) : ℚ) := by
    exact_mod_cast h.symm
  rw [hq]
  norm_num
  ring

theorem decodeLine_lineBody (p : Product) (hname : ',' ∉ p.getName)
    (hfin : p.getPrice.isFinite = true) (hsign : p.getPrice.signBit = false) :
    decodeLine (lineBody p) = some (p.getName, p.getPrice.roundedToMicro) := by
  unfold decodeLine lineBody
  rw [List.append_assoc, List.singleton_append, splitOn_append_sep _ _ _ hname,
    splitOn_eq_single _ _ (comma_not_mem_to_string _)]
  cases hp : p.getPrice with
  | finite neg m k =>
    rw [hp] at hsign
    simp only [Double.signBit] at hsign
    subst hsign
    simp [parseDecimal_to_string]
  | inf neg => rw [hp] at hfin; simp [Double.isFinite] at hfin
  | nan neg => rw [hp] at hfin; simp [Double.isFinite] at hfin

theorem decodeLines_lineBody (ps : List Product) (hname : ∀ p ∈ ps, ',' ∉ p.getName)
    (hprice : ∀ p ∈ ps, p.getPrice.isFinite = true ∧ p.getPrice.signBit = false) :
    decodeLines (ps.map lineBody) =
      some (ps.map (fun p => (p.getName, p.getPrice.roundedToMicro))) := by
  induction ps with
  | nil => rfl
  | cons p ps ih =>
    have hp := hprice p (List.mem_cons_self _ _)
    simp only [List.map_cons, decodeLines]
    rw [decodeLine_lineBody p (hname p (List.mem_cons_self _ _)) hp.1 hp.2,
      ih (fun q hq => hname q (List.mem_cons_of_mem _ hq))
        (fun q hq => hprice q (List.mem_cons_of_mem _ hq))]

theorem decode_serialize_rounded (o : Order)
    (hname : ∀ p ∈ o.getProducts, '\n' ∉ p.getName ∧ ',' ∉ p.getName)
    (hprice : ∀ p ∈ o.getProducts, p.getPrice.isFinite = true ∧ p.getPrice.signBit = false) :
    decode o.serialize =
      some (o.getProducts.map (fun p => (p.getName, p.getPrice.roundedToMicro))) := by
  unfold decode
  rw [serialize_eq_flatten, splitOn_lines _ (fun p hp => (hname p hp).1)]
  simp
  exact decodeLines_lineBody _ (fun p hp => (hname p hp).2) hprice

/-! ## Rounding to six decimals -/

theorem microUnits_bounds (m k : Nat) :
    2 * (microUnits m k * 2 ^ k) ≤ 2 * (m * 1000000) + 2 ^ k ∧
      2 * (m * 1000000) ≤ 2 * (microUnits m k * 2 ^ k) + 2 ^ k := by
  have hdiv := Nat.div_add_mod (m * 1000000) (2 ^ k)
  have hlt : m * 1000000 % 2 ^ k < 2 ^ k := Nat.mod_lt _ (by positivity)
  rw [Nat.mul_comm (2 ^ k)] at hdiv
  unfold microUnits
  simp only []
  split
  · omega
  · split
    · simp only [Nat.add_mul, Nat.one_mul]; omega
    · split
      · omega
      · simp only [Nat.add_mul, Nat.one_mul]; omega

theorem roundedToMicro_error (m k : Nat) :
    |((microUnits m k : ℚ) / 1000000) - (m : ℚ) / 2 ^ k| ≤ 1 / 2000000 := by
  obtain ⟨h1, h2⟩ := microUnits_bounds m k
  have hb : (0 : ℚ) < 2 ^ k := by positivity
  have h1q : (2 : ℚ) * ((microUnits m k : ℚ) * 2 ^ k) ≤ 2 * ((m : ℚ) * 1000000) + 2 ^ k := by
    exact_mod_cast h1
  have h2q : (2 : ℚ) * ((m : ℚ) * 1000000) ≤ 2 * ((microUnits m k : ℚ) * 2 ^ k) + 2 ^ k := by
    exact_mod_cast h2
  have key : ((microUnits m k : ℚ) / 1000000) - (m : ℚ) / 2 ^ k =
      ((microUnits m k : ℚ) * 2 ^ k - (m : ℚ) * 1000000) / (1000000 * 2 ^ k) := by
    field_simp
    ring
  rw [key, abs_le]
  constructor
  · rw [le_div_iff₀ (by positivity)]
    linarith
  · rw [div_le_iff₀ (by positivity)]
    linarith

theorem roundedToMicro_close (d : Double) (hsign : d.signBit = false) :
    |d.roundedToMicro - d.toRat| ≤ 1 / 2000000 := by
  cases d with
  | finite neg m k =>
    simp only [Double.signBit] at hsign
    subst hsign
    simpa [Double.roundedToMicro, Double.toRat] using roundedToMicro_error m k
  | inf neg => simp [Double.roundedToMicro, Double.toRat]
  | nan neg => simp [Double.roundedToMicro, Double.toRat]

/-! ## The observer loop -/

theorem foldl_update (observers : List ObserverId) (order : Order) (acc : List Event) :
    observers.foldl (fun trace observer => trace ++ [Event.update observer order]) acc =
      acc ++ observers.map (fun observer => Event.update observer order) := by
  induction observers generalizing acc with
  | nil => simp
  | cons ob obs ih => simp [List.foldl_cons, ih, List.append_assoc]

theorem placeOrder_trace_eq (m : OrderManager) (order : Order) :
    (m.placeOrder order).2 =
      Event.recorded order ::
        (m.observers.map (fun observer => Event.update observer order) ++
          [Event.processOrder order]) := by
  simp [OrderManager.placeOrder, foldl_update]

theorem registerAll_observers (m : OrderManager) (observers : List ObserverId) :
    (registerAll m observers).observers = m.observers ++ observers ∧
      (registerAll m observers).orders = m.orders := by
  induction observers generalizing m with
  | nil => simp [registerAll]
  | cons ob obs ih =>
    have h := ih (m.addObserver ob)
    simp only [registerAll, List.foldl_cons] at h ⊢
    rw [h.1, h.2]
    simp [OrderManager.addObserver]

theorem filter_isUpdate_map (observers : List ObserverId) (order : Order) :
    (observers.map (fun observer => Event.update observer order)).filter Event.isUpdate =
      observers.map (fun observer => Event.update observer order) := by
  induction observers with
  | nil => rfl
  | cons ob obs ih => simp [List.filter_cons, Event.isUpdate, ih]

theorem filter_isProcessOrder_map (observers : List ObserverId) (order : Order) :
    (observers.map (fun observer => Event.update observer order)).filter Event.isProcessOrder =
      [] := by
  induction observers with
  | nil => rfl
  | cons ob obs ih => simp [List.filter_cons, Event.isProcessOrder]

/-! ## The claims -/

/-- C1, as stated, fails: the order of one product `x` priced `2^-24` has a name without
newline or comma, its record is `x,0.000000` and a newline, and decoding it gives the
price `0`, not `2^-24`. -/
theorem decode_serialize_loses_small_price :
    (∀ p ∈ tinyPriceOrder.getProducts, '\n' ∉ p.getName ∧ ',' ∉ p.getName) ∧
      tinyPriceOrder.serialize = ['x', ',', '0', '.', '0', '0', '0', '0', '0', '0', '\n'] ∧
      decode tinyPriceOrder.serialize = some [(['x'], 0)] ∧
      decode tinyPriceOrder.serialize ≠ some (tinyPriceOrder.getProducts.map Product.pair) := by
  have hname : ∀ p ∈ tinyPriceOrder.getProducts, '\n' ∉ p.getName ∧ ',' ∉ p.getName := by
    decide
  have hprice : ∀ p ∈ tinyPriceOrder.getProducts,
      p.getPrice.isFinite = true ∧ p.getPrice.signBit = false := by decide
  have hmicro : microUnits 1 24 = 0 := by decide
  have hdec : decode tinyPriceOrder.serialize = some [(['x'], 0)] := by
    rw [decode_serialize_rounded _ hname hprice]
    simp [tinyPriceOrder, Order.getProducts, Product.getName, Product.getPrice,
      Double.roundedToMicro, hmicro]
  refine ⟨hname, by decide, hdec, ?_⟩
  rw [hdec]
  simp [tinyPriceOrder, Order.getProducts, Product.pair, Product.getName, Product.getPrice,
    Double.toRat]
  norm_num

/-- C1, amended: for every order whose product names contain no newline and no comma and
whose prices are finite with a clear sign bit, decoding the text returned by
`Order::serialize` yields the names of `Order::getProducts`, in the same order, each with
the price rounded to six decimals, which is within `0.0000005` of the price. -/
theorem decode_serialize_roundtrip (o : Order)
    (hname : ∀ p ∈ o.getProducts, '\n' ∉ p.getName ∧ ',' ∉ p.getName)
    (hprice : ∀ p ∈ o.getProducts, p.getPrice.isFinite = true ∧ p.getPrice.signBit = false) :
    decode o.serialize =
        some (o.getProducts.map (fun p => (p.getName, p.getPrice.roundedToMicro))) ∧
      ∀ p ∈ o.getProducts, |p.getPrice.roundedToMicro - p.getPrice.toRat| ≤ 1 / 2000000 :=
  ⟨decode_serialize_rounded o hname hprice,
    fun p hp => roundedToMicro_close _ (hprice p hp).2⟩

/-- Witness for C1, amended: the order built by `main`. -/
theorem decode_serialize_roundtrip_witness :
    (∀ p ∈ mainOrder.getProducts, '\n' ∉ p.getName ∧ ',' ∉ p.getName) ∧
      (∀ p ∈ mainOrder.getProducts,
        p.getPrice.isFinite = true ∧ p.getPrice.signBit = false) ∧
      (decode mainOrder.serialize =
          some (mainOrder.getProducts.map (fun p => (p.getName, p.getPrice.roundedToMicro))) ∧
        ∀ p ∈ mainOrder.getProducts,
          |p.getPrice.roundedToMicro - p.getPrice.toRat| ≤ 1 / 2000000) :=
  ⟨by decide, by decide, decode_serialize_roundtrip mainOrder (by decide) (by decide)⟩

/-- C2, as stated, fails: an order of one product named `a`, newline, `b` serializes to a
text that splits at the newline into three entries, not two. -/
theorem split_count_fails_for_newline_name :
    newlineNameOrder.getProducts.length = 1 ∧
      (newlineNameOrder.serialize.splitOn '\n').length = 3 ∧
      (newlineNameOrder.serialize.splitOn '\n').length ≠
        newlineNameOrder.getProducts.length + 1 := by
  decide

/-- C2, amended: for every order with N products whose names contain no newline,
splitting the text returned by `Order::serialize` at the newline gives N entries, one per
product, followed by one trailing empty entry. -/
theorem serialize_split_count (o : Order) (hname : ∀ p ∈ o.getProducts, '\n' ∉ p.getName) :
    (o.serialize.splitOn '\n').length = o.getProducts.length + 1 ∧
      (o.serialize.splitOn '\n').getLast? = some [] ∧
      (o.serialize.splitOn '\n').dropLast =
        o.getProducts.map (fun p => p.getName ++ [','] ++ to_string p.getPrice) := by
  rw [serialize_eq_flatten, splitOn_lines _ hname]
  refine ⟨by simp, by simp, ?_⟩
  rw [List.dropLast_concat]
  rfl

/-- Witness for C2, amended: the order built by `main`. -/
theorem serialize_split_count_witness :
    (∀ p ∈ mainOrder.getProducts, '\n' ∉ p.getName) ∧
      ((mainOrder.serialize.splitOn '\n').length = mainOrder.getProducts.length + 1 ∧
        (mainOrder.serialize.splitOn '\n').getLast? = some [] ∧
        (mainOrder.serialize.splitOn '\n').dropLast =
          mainOrder.getProducts.map (fun p => p.getName ++ [','] ++ to_string p.getPrice)) :=
  ⟨by decide, serialize_split_count mainOrder (by decide)⟩

/-- C3: for every sequence of products added to a fresh order, `Order::getProducts` is
that sequence and `Order::serialize` returns exactly the concatenation, in that order, of
one line per product: the name, a comma, the rendered price and one newline, with nothing
before, between or after the lines. -/
theorem serialize_is_concatenation_of_lines (ps : List Product) :
    (buildOrder ps).getProducts = ps ∧
      (buildOrder ps).serialize =
        (ps.map (fun p => p.getName ++ [','] ++ to_string p.getPrice ++ ['\n'])).flatten := by
  refine ⟨buildOrder_products ps, ?_⟩
  rw [serialize_eq_flatten, buildOrder_products]
  rfl

/-- C4: a freshly constructed order, on which `addProduct` was never called, has no
products and serializes to the empty string. -/
theorem serialize_empty_order :
    Order.empty.getProducts = [] ∧ Order.empty.serialize = [] :=
  ⟨rfl, rfl⟩

/-- C5, as stated, fails: `+inf` is a non-negative price and is rendered as `inf`, which
has no decimal point, so no number of digits fits every non-negative price. -/
theorem no_fixed_decimals_for_infinite_price :
    infinitePriceProduct.getPrice.isNonNegative = true ∧
      to_string infinitePriceProduct.getPrice = ['i', 'n', 'f'] ∧
      ¬ ∃ d : Nat, ∀ p : Product, p.getPrice.isNonNegative = true →
        digitsAfterPoint (to_string p.getPrice) = some d := by
  refine ⟨by decide, by decide, ?_⟩
  rintro ⟨d, h⟩
  have h1 := h infinitePriceProduct (by decide)
  have h2 : digitsAfterPoint (to_string infinitePriceProduct.getPrice) = none := by decide
  rw [h2] at h1
  cases h1

/-- C5, amended: in every line produced by `Order::serialize` for a product with a finite
non-negative price, the text between the comma and the newline has exactly six digits
after its decimal point, whatever the price. -/
theorem price_field_has_six_decimals (o : Order)
    (hprice : ∀ p ∈ o.getProducts,
      p.getPrice.isFinite = true ∧ p.getPrice.isNonNegative = true) :
    o.serialize =
        (o.getProducts.map
          (fun p => p.getName ++ [','] ++ to_string p.getPrice ++ ['\n'])).flatten ∧
      ∀ p ∈ o.getProducts, digitsAfterPoint (to_string p.getPrice) = some 6 := by
  refine ⟨by rw [serialize_eq_flatten]; rfl, ?_⟩
  intro p hp
  have hfin := (hprice p hp).1
  cases hd : p.getPrice with
  | finite neg m k => exact digitsAfterPoint_to_string neg m k
  | inf neg => rw [hd] at hfin; simp [Double.isFinite] at hfin
  | nan neg => rw [hd] at hfin; simp [Double.isFinite] at hfin

/-- Witness for C5, amended: the order built by `main`. -/
theorem price_field_has_six_decimals_witness :
    (∀ p ∈ mainOrder.getProducts,
        p.getPrice.isFinite = true ∧ p.getPrice.isNonNegative = true) ∧
      (mainOrder.serialize =
          (mainOrder.getProducts.map
            (fun p => p.getName ++ [','] ++ to_string p.getPrice ++ ['\n'])).flatten ∧
        ∀ p ∈ mainOrder.getProducts, digitsAfterPoint (to_string p.getPrice) = some 6) :=
  ⟨by decide, price_field_has_six_decimals mainOrder (by decide)⟩

/-- C6: after any sequence of `addObserver` calls, the `update` calls made by `placeOrder`
are exactly one per registration, in the order the observers were added, each with the
order that was placed. -/
theorem observers_notified_in_subscription_order (m : OrderManager)
    (observers : List ObserverId) (order : Order) :
    (((registerAll m observers).placeOrder order).2.filter Event.isUpdate) =
      (m.observers ++ observers).map (fun observer => Event.update observer order) := by
  rw [placeOrder_trace_eq, (registerAll_observers m observers).1]
  simp only [List.filter_cons, Event.isUpdate, List.filter_append, filter_isUpdate_map]
  simp [Event.isUpdate]

/-- C7: the trace of `placeOrder` is: the order is recorded in `orders`, then every
registered observer is notified in turn, then the order is handed to
`OrderProcessor::processOrder`; the dispatch is the last event, it occurs exactly once, and
no observer update follows it. -/
theorem placeOrder_records_notifies_then_dispatches (m : OrderManager) (order : Order) :
    (m.placeOrder order).1.orders = m.orders ++ [order] ∧
      (m.placeOrder order).2 =
        [Event.recorded order] ++
          m.observers.map (fun observer => Event.update observer order) ++
          [Event.processOrder order] ∧
      (m.placeOrder order).2.filter Event.isProcessOrder = [Event.processOrder order] ∧
      (m.placeOrder order).2.getLast? = some (Event.processOrder order) ∧
      (m.placeOrder order).2.dropLast.filter Event.isProcessOrder = [] := by
  have htrace := placeOrder_trace_eq m order
  refine ⟨rfl, by rw [htrace]; simp, ?_, ?_, ?_⟩
  · rw [htrace]
    simp [List.filter_cons, List.filter_append, filter_isProcessOrder_map,
      Event.isProcessOrder]
  · rw [htrace, ← List.cons_append, List.getLast?_concat]
  · rw [htrace, ← List.cons_append, List.dropLast_concat]
    simp [List.filter_cons, filter_isProcessOrder_map, Event.isProcessOrder]

/-- C8, as stated, fails: when `openFile` cannot open the file, `main` prints one line on
standard error, still places its order (it is recorded, the observer is notified, it is
dispatched) and returns `0`. -/
theorem main_places_order_after_failed_open :
    (main false).1 =
        [Event.cerr "Failed to open file: orders.txt".toList, Event.recorded mainOrder,
          Event.update mainObserver mainOrder, Event.processOrder mainOrder, Event.sleep 5] ∧
      (main false).2 = 0 := by
  decide

/-- C8, amended: whether or not `openFile` manages to open the file, it only prints a
line (on standard error when it fails) and returns nothing; `main` then places its order
exactly once and returns `0`. -/
theorem main_ignores_open_result (canOpen : Bool) :
    (FileManager.getInstance.openFile canOpen "orders.txt".toList).2 =
        (if canOpen then [Event.cout "File opened: orders.txt".toList]
          else [Event.cerr "Failed to open file: orders.txt".toList]) ∧
      (main canOpen).1 =
        (FileManager.getInstance.openFile canOpen "orders.txt".toList).2 ++
          [Event.recorded mainOrder, Event.update mainObserver mainOrder,
            Event.processOrder mainOrder, Event.sleep 5] ∧
      (main canOpen).1.filter Event.isProcessOrder = [Event.processOrder mainOrder] ∧
      (main canOpen).2 = 0 := by
  cases canOpen <;> decide

/-- C9, at the failing input: when the file opens and every write succeeds, `process`
reports that the order was saved and the file holds the prior content followed by the
serialized order; when the file cannot be opened it reports the failure and leaves the
content unchanged.  But when the file opens and the write fails before any character is
taken, `process` still reports that the order was saved, reports no failure, and the
content is unchanged, not the prior content followed by the record. -/
theorem process_reports_saved_after_failed_write (file : Text) :
    (∀ order : Order,
        OrderProcessor.process true none file order =
          (file ++ order.serialize, [Event.cout OrderProcessor.savedMessage])) ∧
      (∀ (writeLimit : Option Nat) (order : Order),
        OrderProcessor.process false writeLimit file order =
          (file, [Event.cerr OrderProcessor.failedMessage])) ∧
      OrderProcessor.reportsPersisted (OrderProcessor.process true (some 0) file mainOrder).2 ∧
      ¬ OrderProcessor.reportsFailed (OrderProcessor.process true (some 0) file mainOrder).2 ∧
      (OrderProcessor.process true (some 0) file mainOrder).1 = file ∧
      (OrderProcessor.process true (some 0) file mainOrder).1 ≠ file ++ mainOrder.serialize := by
  have hne : mainOrder.serialize ≠ [] := by decide
  refine ⟨fun _ => rfl, fun _ _ => rfl, ?_, ?_, ?_, ?_⟩
  · simp [OrderProcessor.process, OrderProcessor.reportsPersisted]
  · simp [OrderProcessor.process, OrderProcessor.reportsFailed]
  · simp [OrderProcessor.process, OrderProcessor.written]
  · simp only [OrderProcessor.process, OrderProcessor.written, if_true, List.take_zero,
      List.append_nil]
    intro h
    exact hne (List.self_eq_append_right.mp h)

end OrderSystem
